import Mathlib

/-!
# Verification of the `tutel` command-line argument parser (`src/app.rs`)

`tutel` is a minimalistic per-directory todo app.  The repository file under
verification, `src/app.rs`, builds the command-line parser with the `bpaf`
combinator library and produces a typed `Command` value that the rest of the
program consumes.

## Embedding

The parser is embedded shallowly.  Argument tokenization is thin I/O glue
(the spec treats it as an external collaborator), so the command line is
modelled one level above raw strings, as a list of `Token`s: a `Token.flag`
is a switch occurrence such as `-a` or `--all`, a `Token.arg` is a flag that
carries a value such as `--editor vim`, and a `Token.pos` is a positional
word.  Each `bpaf` sub-parser of the source becomes a Lean function from a
token list to `Except String Command`, written to reproduce the `bpaf`
semantics of the source combinators:

* `switch` / `flag(present, absent)`: the flag may appear at most once
  anywhere on the line; a second occurrence is a parse error.
* `req_flag(v)`: succeeds with `v` exactly when the flag is present.
* `positional`, `.many()`, `.some(msg)`, `.optional()`: positionals are the
  `Token.pos` words in order.
* `construct!([p, q])` (alternation) followed by `.to_options()`: a branch
  is only accepted when it consumes the whole command line, so a line that
  mixes items of two branches (for instance index positionals together with
  `--all`) fails to parse.
* an item no branch recognises is a parse error (`bpaf` rejects leftovers).

`env("EDITOR")` is modelled by passing the (optional) value of the `EDITOR`
environment variable as an explicit parameter.  Rust `usize` parsing
(`str::parse::<usize>`) is modelled by `parseUsize`, including the leading
`+`, the all-digits requirement and the 64-bit overflow bound.

The task-selector *resolver* and the command *interpreter* are not part of
`src/`; where a claim needs them they are modelled from the spec and marked
as such in their doc comments.
-/

namespace Tutel

/-- A task of the project data model (spec §3; used by the dynamic index
completion in `src/app.rs`, which reads `task.index` and `task.desc`). -/
structure Task where
  index : Nat
  desc : String
  completed : Bool
deriving DecidableEq, Repr

/-- Indicates what Tasks(s) to select (`src/app.rs` lines 4-9). -/
inductive TaskSelector where
  | Indexed (ids : List Nat)
  | All
  | Completed
deriving DecidableEq, Repr

/-- The command to execute (`src/app.rs` lines 12-22). -/
inductive Command where
  | Show
  | NewProject (name : Option String) (force : Bool)
  | AddTask (desc : String) (completed : Bool)
  | MarkCompletion (completed : Bool) (selector : TaskSelector)
  | RemoveTask (selector : TaskSelector)
  | EditTask (editor : String) (index : Nat)
  | PrintCompletion (shell : String)
  | RemoveProject
deriving DecidableEq, Repr

/-- A command-line item, one level above raw tokenization: a switch
occurrence (`flag`), a flag carrying a value (`arg`), or a positional
word (`pos`). -/
inductive Token where
  | flag (name : String)
  | arg (name : String) (value : String)
  | pos (value : String)
deriving DecidableEq, Repr

/-- How many times one of the given switch spellings occurs on the line. -/
def flagCount (names : List String) (ts : List Token) : Nat :=
  (ts.filter (fun t => match t with
    | .flag n => names.contains n
    | _ => false)).length

/-- The values carried by occurrences of a value-taking flag, in order. -/
def argValues (names : List String) (ts : List Token) : List String :=
  ts.filterMap (fun t => match t with
    | .arg n v => if names.contains n then some v else none
    | _ => none)

/-- The positional words of the line, in order. -/
def positionals (ts : List Token) : List String :=
  ts.filterMap (fun t => match t with
    | .pos v => some v
    | _ => none)

/-- `true` when every flag item on the line is one the parser knows
(`bpaf` rejects unknown flags; positionals are judged separately). -/
def knownTokens (flags args : List String) (ts : List Token) : Bool :=
  ts.all (fun t => match t with
    | .flag n => flags.contains n
    | .arg n _ => args.contains n
    | .pos _ => true)

/-- Rust `str::parse::<usize>` on a 64-bit target: an optional leading `+`,
then one or more ASCII digits, failing on any other character and on
overflow past `usize::MAX = 2 ^ 64 - 1`. -/
def parseUsize (s : String) : Option Nat :=
  let digits := match s.data with
    | '+' :: rest => rest
    | l => l
  if digits.isEmpty then none
  else if digits.all Char.isDigit then
    let v := digits.foldl (fun acc c => acc * 10 + (c.toNat - 48)) 0
    if v < 2 ^ 64 then some v else none
  else none

/-- The description-joining loop of `add_task_command` (`src/app.rs`
lines 84-95): push each word, and push a single `' '` after every word
whose index is below `len - 1`. -/
def joinDesc (v : List String) : String :=
  v.enum.foldl
    (fun desc p =>
      let d := desc ++ p.2
      if p.1 < v.length - 1 then d ++ " " else d)
    ""

/-- The `parse` step of `parse_indices` (`src/app.rs` lines 172-183):
parse every word as a `usize`, failing on the first invalid one with
`not a valid index: x`. -/
def parseIndicesList : List String → Except String (List Nat)
  | [] => .ok []
  | x :: xs =>
    match parseUsize x with
    | none => .error ("not a valid index: " ++ x)
    | some n => (parseIndicesList xs).map (n :: ·)

/-- `parse_indices` (`src/app.rs` lines 168-184): `positional("indices")`
`.some("one or more task indices are required")` followed by the per-word
`usize` parse; on success the selector is `Indexed` of the parsed values
in request order. -/
def parse_indices (ps : List String) : Except String TaskSelector :=
  match ps with
  | [] => .error "one or more task indices are required"
  | _ => (parseIndicesList ps).map TaskSelector.Indexed

/-- `new_project_command` (`src/app.rs` lines 68-78): an optional `name`
positional and a `-f`/`--force` switch. -/
def new_project_command (ts : List Token) : Except String Command :=
  if !knownTokens ["-f", "--force"] [] ts then .error "unexpected item"
  else if flagCount ["-f", "--force"] ts > 1 then .error "flag used more than once"
  else
    match positionals ts with
    | [] => .ok (.NewProject none (flagCount ["-f", "--force"] ts == 1))
    | [n] => .ok (.NewProject (some n) (flagCount ["-f", "--force"] ts == 1))
    | _ => .error "unexpected positional"

/-- `add_task_command` (`src/app.rs` lines 80-105): description positionals
(`many`, guarded non-empty with `the task description is required`, then
joined with single spaces) and a `-c`/`--completed` switch. -/
def add_task_command (ts : List Token) : Except String Command :=
  if !knownTokens ["-c", "--completed"] [] ts then .error "unexpected item"
  else if flagCount ["-c", "--completed"] ts > 1 then .error "flag used more than once"
  else if (positionals ts).isEmpty then .error "the task description is required"
  else .ok (.AddTask (joinDesc (positionals ts)) (flagCount ["-c", "--completed"] ts == 1))

/-- `task_completed_command` (`src/app.rs` lines 107-124): a `-!`/`--not`
`flag(false, true)` (present means *not* completed), and a selector that is
either the index positionals of `parse_indices` or the `-a`/`--all`
`req_flag`; an alternation branch must consume the whole line, so mixing
indices with `--all` is a parse error. -/
def task_completed_command (ts : List Token) : Except String Command :=
  if !knownTokens ["-!", "--not", "-a", "--all"] [] ts then .error "unexpected item"
  else if flagCount ["-!", "--not"] ts > 1 || flagCount ["-a", "--all"] ts > 1 then
    .error "flag used more than once"
  else if flagCount ["-a", "--all"] ts = 1 then
    if (positionals ts).isEmpty then
      .ok (.MarkCompletion (flagCount ["-!", "--not"] ts == 0) .All)
    else .error "index positionals conflict with --all"
  else
    (parse_indices (positionals ts)).map
      (.MarkCompletion (flagCount ["-!", "--not"] ts == 0) ·)

/-- `remove_task_command` (`src/app.rs` lines 126-146): a selector that is
index positionals, `-a`/`--all` (`All`) or `-c`/`--cleanup` (`Completed`)
mapped to `RemoveTask`, alternated with the `--project` `req_flag` mapped
to `RemoveProject`; each branch must consume the whole line, so conflicting
selections are parse errors. -/
def remove_task_command (ts : List Token) : Except String Command :=
  if !knownTokens ["-a", "--all", "-c", "--cleanup", "--project"] [] ts then
    .error "unexpected item"
  else if flagCount ["-a", "--all"] ts + flagCount ["-c", "--cleanup"] ts
      + flagCount ["--project"] ts > 1 then
    .error "conflicting selection flags"
  else if flagCount ["-a", "--all"] ts = 1 then
    if (positionals ts).isEmpty then .ok (.RemoveTask .All)
    else .error "index positionals conflict with --all"
  else if flagCount ["-c", "--cleanup"] ts = 1 then
    if (positionals ts).isEmpty then .ok (.RemoveTask .Completed)
    else .error "index positionals conflict with --cleanup"
  else if flagCount ["--project"] ts = 1 then
    if (positionals ts).isEmpty then .ok .RemoveProject
    else .error "index positionals conflict with --project"
  else (parse_indices (positionals ts)).map .RemoveTask

/-- `edit_task_command` (`src/app.rs` lines 186-198): a `usize` `index`
positional, and an editor taken from the `-e`/`--editor` argument when
given, falling back to the `EDITOR` environment variable (modelled as the
explicit parameter `envEditor`), and failing when neither is available. -/
def edit_task_command (envEditor : Option String) (ts : List Token) :
    Except String Command :=
  if !knownTokens [] ["-e", "--editor"] ts then .error "unexpected item"
  else if (argValues ["-e", "--editor"] ts).length > 1 then
    .error "flag used more than once"
  else
    match
      match argValues ["-e", "--editor"] ts with
      | [v] => some v
      | _ => envEditor
    with
    | none => .error "expected --editor"
    | some editor =>
      match positionals ts with
      | [x] =>
        match parseUsize x with
        | some i => .ok (.EditTask editor i)
        | none => .error ("could not parse " ++ x)
      | [] => .error "expected index"
      | _ => .error "unexpected positional"

/-- `print_completions_command` (`src/app.rs` lines 200-206): a single
`shell` positional. -/
def print_completions_command (ts : List Token) : Except String Command :=
  if !knownTokens [] [] ts then .error "unexpected item"
  else
    match positionals ts with
    | [s] => .ok (.PrintCompletion s)
    | [] => .error "expected shell"
    | _ => .error "unexpected positional"

/-- `options` (`src/app.rs` lines 24-56): the six subcommands with their
short aliases, with `.fallback(Command::Show)`.  The fallback value is used
when no subcommand is named, but `to_options` still rejects any leftover
item, so only the empty line parses to `Show`. -/
def options (envEditor : Option String) : List Token → Except String Command
  | [] => .ok .Show
  | .pos n :: rest =>
    if n == "new" then new_project_command rest
    else if n == "add" || n == "a" then add_task_command rest
    else if n == "done" || n == "d" then task_completed_command rest
    else if n == "rm" then remove_task_command rest
    else if n == "edit" || n == "e" then edit_task_command envEditor rest
    else if n == "completions" then print_completions_command rest
    else .error ("unexpected item: " ++ n)
  | _ => .error "unexpected item"

/-- `complete_indices` (`src/app.rs` lines 148-166): dynamic completion of
index positionals.  The source loads the project found from the current
directory (`tutel::load_project_rec`) and offers every task index that is
not already typed (`full`, all words but the last) and that starts with the
word being completed (`active`, the last word).  The loaded project's task
list is the `tasks` parameter; the source `unwrap`s on an empty input, so
that case is `none` here.  `starts_with` is rendered on the character
lists. -/
def complete_indices (tasks : List Task) (input : List String) :
    Option (List (String × Option String)) :=
  match input.getLast? with
  | none => none
  | some active =>
    some (tasks.filterMap (fun task =>
      if input.dropLast.contains (toString task.index) then none
      else if active.data.isPrefixOf (toString task.index).data then
        some (toString task.index, some task.desc)
      else none))

/-- Modelled from the spec: looking a requested id up in the task list
("for each requested id, find the Task with that index", spec §4.3); the
resolver itself is not part of `src/`. -/
def lookupTask (tasks : List Task) (i : Nat) : Option Task :=
  tasks.find? (fun t => t.index == i)

/-- Modelled from the spec: the Task Selector Resolver (spec §4.3), which
is not part of `src/` (only the parser is).  `Indexed(ids)` resolves each
requested id, failing with `IndexNotFound(id)` at the first offending id in
request order; `All` resolves to every task in insertion order; `Completed`
to every completed task in insertion order. -/
def resolve (sel : TaskSelector) (tasks : List Task) :
    Except String (List Task) :=
  match sel with
  | .Indexed ids =>
    match ids.find? (fun i => (lookupTask tasks i).isNone) with
    | some i => .error ("IndexNotFound(" ++ toString i ++ ")")
    | none => .ok (ids.filterMap (lookupTask tasks))
  | .All => .ok tasks
  | .Completed => .ok (tasks.filter (fun t => t.completed))

/-- Modelled from the spec: the `MarkCompletion(value, selector)` step of
the Command Interpreter (spec §4.4), which is not part of `src/`: "for
every resolved Task, set `completed = value`". -/
def markCompletion (value : Bool) (sel : TaskSelector) (tasks : List Task) :
    Except String (List Task) :=
  (resolve sel tasks).map (fun resolved =>
    tasks.map (fun t =>
      if resolved.any (fun r => r.index == t.index) then
        { t with completed := value }
      else t))

/-- Modelled from the spec: the `RemoveTask(selector)` step of the Command
Interpreter (spec §4.4), which is not part of `src/`: "remove every
resolved Task from the sequence; remaining tasks keep their original
indices". -/
def removeTask (sel : TaskSelector) (tasks : List Task) :
    Except String (List Task) :=
  (resolve sel tasks).map (fun resolved =>
    tasks.filter (fun t => !resolved.any (fun r => r.index == t.index)))

/-- Deduplication keeping the first occurrence of every id, used to state
the duplicate-id policy of spec §4.4. -/
def dedupKeepFirst : List Nat → List Nat
  | [] => []
  | x :: xs => x :: dedupKeepFirst (xs.filter (fun y => y != x))
termination_by l => l.length
decreasing_by
  simp only [List.length_cons]
  exact Nat.lt_succ_of_le (List.length_filter_le _ _)

/-- "Non-empty after trimming" (spec §3): Rust `str::trim` removes leading
and trailing whitespace, so the trimmed form is non-empty exactly when the
string has some non-whitespace character. -/
def nonEmptyAfterTrim (s : String) : Bool :=
  s.data.any (fun c => !c.isWhitespace)

/-- Single-space join with no leading or trailing separator, the structural
form of the loop in `add_task_command`; related to `joinDesc` and to
`String.intercalate` below. -/
def spaceJoin : List String → String
  | [] => ""
  | [s] => s
  | s :: rest => s ++ " " ++ spaceJoin rest

/- ### Helper lemmas -/

theorem except_map_ok {α β : Type} (f : α → β) (e : Except String α) (c : β) :
    e.map f = .ok c ↔ ∃ x, e = .ok x ∧ c = f x := by
  cases e <;> simp [Except.map, eq_comm]

theorem parseIndicesList_ok_forall₂ :
    ∀ ps ns, parseIndicesList ps = .ok ns →
      List.Forall₂ (fun x n => parseUsize x = some n) ps ns := by
  intro ps
  induction ps with
  | nil =>
    intro ns h
    simp only [parseIndicesList] at h
    cases h
    exact List.Forall₂.nil
  | cons x xs ih =>
    intro ns h
    simp only [parseIndicesList] at h
    cases hx : parseUsize x with
    | none => rw [hx] at h; cases h
    | some n =>
      rw [hx] at h
      rw [except_map_ok] at h
      obtain ⟨ms, hms, rfl⟩ := h
      exact List.Forall₂.cons hx (ih ms hms)

theorem parseIndicesList_ok_of_valid :
    ∀ ps, (∀ x ∈ ps, (parseUsize x).isSome) →
      ∃ ns, parseIndicesList ps = .ok ns := by
  intro ps
  induction ps with
  | nil => intro _; exact ⟨[], rfl⟩
  | cons x xs ih =>
    intro h
    have hx := h x (by simp)
    cases hx' : parseUsize x with
    | none => rw [hx'] at hx; cases hx
    | some n =>
      obtain ⟨ns, hns⟩ := ih (fun y hy => h y (by simp [hy]))
      exact ⟨n :: ns, by simp [parseIndicesList, hx', hns, Except.map]⟩

theorem parseIndicesList_err_find :
    ∀ ps x, ps.find? (fun y => (parseUsize y).isNone) = some x →
      parseIndicesList ps = .error ("not a valid index: " ++ x) := by
  intro ps
  induction ps with
  | nil => intro x h; simp at h
  | cons y ys ih =>
    intro x h
    rw [List.find?_cons] at h
    cases hy : parseUsize y with
    | none =>
      rw [hy] at h
      simp only [Option.isNone_none, if_pos] at h
      cases h
      simp [parseIndicesList, hy]
    | some n =>
      have h' : List.find? (fun y => (parseUsize y).isNone) ys = some x := by
        simpa [hy] using h
      simp [parseIndicesList, hy, ih x h', Except.map]

theorem parse_indices_ok_inv (ps : List String) (sel : TaskSelector)
    (h : parse_indices ps = .ok sel) :
    ps ≠ [] ∧ ∃ ids, sel = .Indexed ids ∧ parseIndicesList ps = .ok ids := by
  cases ps with
  | nil => cases h
  | cons x xs =>
    simp only [parse_indices] at h
    rw [except_map_ok] at h
    obtain ⟨ids, hids, rfl⟩ := h
    exact ⟨by simp, ids, rfl, hids⟩

theorem parse_indices_err_iff (ps : List String) :
    (∃ e, parse_indices ps = .error e) ↔ (ps = [] ∨ ∃ x ∈ ps, parseUsize x = none) := by
  constructor
  · intro ⟨e, he⟩
    by_contra hcon
    push_neg at hcon
    obtain ⟨hne, hall⟩ := hcon
    have hvalid : ∀ x ∈ ps, (parseUsize x).isSome := by
      intro x hx
      cases hx' : parseUsize x with
      | none => exact absurd hx' (hall x hx)
      | some n => simp
    obtain ⟨ns, hns⟩ := parseIndicesList_ok_of_valid ps hvalid
    cases ps with
    | nil => exact hne rfl
    | cons y ys => simp [parse_indices, hns, Except.map] at he
  · intro h
    rcases h with rfl | ⟨x, hx, hnone⟩
    · exact ⟨_, rfl⟩
    · have hfind : (ps.find? (fun y => (parseUsize y).isNone)).isSome := by
        rw [List.find?_isSome]
        exact ⟨x, hx, by simp [hnone]⟩
      cases hf : ps.find? (fun y => (parseUsize y).isNone) with
      | none => rw [hf] at hfind; cases hfind
      | some z =>
        have herr := parseIndicesList_err_find ps z hf
        cases ps with
        | nil => simp at hf
        | cons y ys =>
          exact ⟨"not a valid index: " ++ z, by simp [parse_indices, herr, Except.map]⟩

theorem intercalate_go_append :
    ∀ (t : List String) (acc₁ acc₂ s : String),
      String.intercalate.go (acc₁ ++ acc₂) s t = acc₁ ++ String.intercalate.go acc₂ s t := by
  intro t
  induction t with
  | nil => intro acc₁ acc₂ s; rfl
  | cons a as ih =>
    intro acc₁ acc₂ s
    simp only [String.intercalate.go]
    rw [show ((acc₁ ++ acc₂) ++ s) ++ a = acc₁ ++ ((acc₂ ++ s) ++ a) by
      simp [String.append_assoc]]
    exact ih _ _ _

theorem spaceJoin_eq_intercalate : ∀ v, spaceJoin v = String.intercalate " " v := by
  intro v
  induction v with
  | nil => rfl
  | cons a rest ih =>
    cases rest with
    | nil => rfl
    | cons b t =>
      show a ++ " " ++ spaceJoin (b :: t) = String.intercalate " " (a :: b :: t)
      rw [ih]
      have h1 : String.intercalate " " (a :: b :: t)
          = String.intercalate.go ((a ++ " ") ++ b) " " t := rfl
      have h2 : String.intercalate " " (b :: t) = String.intercalate.go b " " t := rfl
      rw [h1, h2, intercalate_go_append]

theorem joinDesc_aux (n : Nat) :
    ∀ (w : List String) (k : Nat) (acc : String), k + w.length = n →
      List.foldl
        (fun desc p =>
          let d := desc ++ p.2
          if p.1 < n - 1 then d ++ " " else d)
        acc (List.enumFrom k w) = acc ++ spaceJoin w := by
  intro w
  induction w with
  | nil => intro k acc h; simp [spaceJoin]
  | cons s rest ih =>
    intro k acc h
    rw [List.enumFrom_cons, List.foldl_cons]
    cases rest with
    | nil =>
      have hk : ¬ (k < n - 1) := by simp at h; omega
      simp [spaceJoin, hk]
    | cons b t =>
      have hk : k < n - 1 := by simp at h; omega
      have hrec := ih (k + 1) ((acc ++ s) ++ " ") (by simp at h ⊢; omega)
      dsimp only
      rw [if_pos hk, hrec]
      simp [spaceJoin, String.append_assoc]

theorem joinDesc_eq_spaceJoin (v : List String) : joinDesc v = spaceJoin v := by
  have h := joinDesc_aux v.length v 0 "" (by simp)
  simpa [joinDesc, List.enum] using h

theorem joinDesc_eq_intercalate (v : List String) :
    joinDesc v = String.intercalate " " v := by
  rw [joinDesc_eq_spaceJoin, spaceJoin_eq_intercalate]

theorem spaceJoin_nonEmptyAfterTrim :
    ∀ (ps : List String) (w : String), w ∈ ps → nonEmptyAfterTrim w = true →
      nonEmptyAfterTrim (spaceJoin ps) = true := by
  intro ps
  induction ps with
  | nil => intro w hw; simp at hw
  | cons s rest ih =>
    intro w hw hne
    cases rest with
    | nil =>
      have hws : w = s := by simpa using hw
      subst hws
      simpa [spaceJoin] using hne
    | cons b t =>
      rw [show spaceJoin (s :: b :: t) = (s ++ " ") ++ spaceJoin (b :: t) from rfl]
      rcases List.mem_cons.mp hw with rfl | hw'
      · unfold nonEmptyAfterTrim at *
        simp only [String.data_append, List.any_append, hne, Bool.true_or]
      · have hrec := ih w hw' hne
        unfold nonEmptyAfterTrim at *
        simp only [String.data_append, List.any_append, hrec, Bool.or_true]

theorem add_ok_inv (ts : List Token) (cmd : Command)
    (h : add_task_command ts = .ok cmd) :
    cmd = .AddTask (joinDesc (positionals ts)) (flagCount ["-c", "--completed"] ts == 1) ∧
      positionals ts ≠ [] ∧ flagCount ["-c", "--completed"] ts ≤ 1 := by
  unfold add_task_command at h
  split_ifs at h with h1 h2 h3
  simp only [Except.ok.injEq] at h
  subst h
  exact ⟨rfl, by simpa using h3, by omega⟩

theorem new_ok_inv (ts : List Token) (cmd : Command)
    (h : new_project_command ts = .ok cmd) :
    ∃ nm f, cmd = .NewProject nm f := by
  unfold new_project_command at h
  split_ifs at h with h1 h2
  split at h
  · exact ⟨_, _, (by simpa using h.symm)⟩
  · exact ⟨_, _, (by simpa using h.symm)⟩
  · simp at h

theorem done_ok_inv (ts : List Token) (cmd : Command)
    (h : task_completed_command ts = .ok cmd) :
    (∃ ids, cmd = .MarkCompletion (flagCount ["-!", "--not"] ts == 0) (.Indexed ids) ∧
        positionals ts ≠ [] ∧ flagCount ["-a", "--all"] ts = 0) ∨
      (cmd = .MarkCompletion (flagCount ["-!", "--not"] ts == 0) .All ∧
        positionals ts = [] ∧ flagCount ["-a", "--all"] ts = 1) := by
  unfold task_completed_command at h
  split_ifs at h with h1 h2 h3 h4
  · right
    simp only [Except.ok.injEq] at h
    subst h
    exact ⟨rfl, by simpa using h4, h3⟩
  · left
    rw [except_map_ok] at h
    obtain ⟨sel, hsel, rfl⟩ := h
    obtain ⟨hne, ids, rfl, _⟩ := parse_indices_ok_inv _ _ hsel
    refine ⟨ids, rfl, hne, ?_⟩
    simp only [Bool.or_eq_true, decide_eq_true_eq, not_or] at h2
    omega

theorem rm_ok_inv (ts : List Token) (cmd : Command)
    (h : remove_task_command ts = .ok cmd) :
    (∃ ids, cmd = .RemoveTask (.Indexed ids) ∧ positionals ts ≠ [] ∧
        flagCount ["-a", "--all"] ts = 0 ∧ flagCount ["-c", "--cleanup"] ts = 0 ∧
        flagCount ["--project"] ts = 0) ∨
      (cmd = .RemoveTask .All ∧ positionals ts = [] ∧
        flagCount ["-a", "--all"] ts = 1 ∧ flagCount ["-c", "--cleanup"] ts = 0 ∧
        flagCount ["--project"] ts = 0) ∨
      (cmd = .RemoveTask .Completed ∧ positionals ts = [] ∧
        flagCount ["-a", "--all"] ts = 0 ∧ flagCount ["-c", "--cleanup"] ts = 1 ∧
        flagCount ["--project"] ts = 0) ∨
      (cmd = .RemoveProject ∧ positionals ts = [] ∧
        flagCount ["-a", "--all"] ts = 0 ∧ flagCount ["-c", "--cleanup"] ts = 0 ∧
        flagCount ["--project"] ts = 1) := by
  unfold remove_task_command at h
  split_ifs at h with h1 h2 h3 h4 h5 h6 h7 h8
  · refine Or.inr (Or.inl ?_)
    simp only [Except.ok.injEq] at h
    subst h
    exact ⟨rfl, by simpa using h4, h3, by omega, by omega⟩
  · refine Or.inr (Or.inr (Or.inl ?_))
    simp only [Except.ok.injEq] at h
    subst h
    exact ⟨rfl, by simpa using h6, by omega, h5, by omega⟩
  · refine Or.inr (Or.inr (Or.inr ?_))
    simp only [Except.ok.injEq] at h
    subst h
    exact ⟨rfl, by simpa using h8, by omega, by omega, h7⟩
  · left
    rw [except_map_ok] at h
    obtain ⟨sel, hsel, rfl⟩ := h
    obtain ⟨hne, ids, rfl, _⟩ := parse_indices_ok_inv _ _ hsel
    exact ⟨ids, rfl, hne, by omega, by omega, by omega⟩

theorem edit_ok_inv (env : Option String) (ts : List Token) (cmd : Command)
    (h : edit_task_command env ts = .ok cmd) :
    ∃ ed i, cmd = .EditTask ed i ∧
      (argValues ["-e", "--editor"] ts = [ed] ∨
        (argValues ["-e", "--editor"] ts = [] ∧ env = some ed)) := by
  unfold edit_task_command at h
  split_ifs at h with h1 h2
  split at h
  · simp at h
  · rename_i editor heq
    split at h
    · rename_i x
      split at h
      · rename_i i hi
        simp only [Except.ok.injEq] at h
        refine ⟨editor, i, h.symm, ?_⟩
        split at heq
        · rename_i v hv
          simp only [Option.some.injEq] at heq
          subst heq
          exact Or.inl hv
        · rename_i hother
          right
          rcases hA : argValues ["-e", "--editor"] ts with _ | ⟨v, _ | ⟨v2, rest⟩⟩
          · exact ⟨rfl, heq⟩
          · exact (hother v hA).elim
          · rw [hA] at h2; simp at h2
      · simp at h
    · simp at h
    · simp at h

theorem comp_ok_inv (ts : List Token) (cmd : Command)
    (h : print_completions_command ts = .ok cmd) :
    ∃ s, cmd = .PrintCompletion s ∧ positionals ts = [s] := by
  unfold print_completions_command at h
  split_ifs at h with h1
  split at h
  · rename_i s hs
    simp only [Except.ok.injEq] at h
    exact ⟨s, h.symm, hs⟩
  · simp at h
  · simp at h

theorem done_err_conflict (ts : List Token) (hps : positionals ts ≠ [])
    (ha : flagCount ["-a", "--all"] ts ≠ 0) :
    ∃ e, task_completed_command ts = .error e := by
  unfold task_completed_command
  split_ifs with h1 h2 h3 h4
  · exact ⟨_, rfl⟩
  · exact ⟨_, rfl⟩
  · exact absurd (by simpa using h4) hps
  · exact ⟨_, rfl⟩
  · exfalso
    simp only [Bool.or_eq_true, decide_eq_true_eq, not_or] at h2
    omega

theorem done_err_missing (ts : List Token) (hps : positionals ts = [])
    (ha : flagCount ["-a", "--all"] ts = 0) :
    ∃ e, task_completed_command ts = .error e := by
  unfold task_completed_command
  split_ifs with h1 h2 h3 h4
  · exact ⟨_, rfl⟩
  · exact ⟨_, rfl⟩
  · exact absurd h3 (by omega)
  · exact absurd h3 (by omega)
  · exact ⟨"one or more task indices are required", by rw [hps]; rfl⟩

theorem rm_err_conflict (ts : List Token) (hps : positionals ts ≠ [])
    (hflags : flagCount ["-a", "--all"] ts + flagCount ["-c", "--cleanup"] ts
      + flagCount ["--project"] ts ≠ 0) :
    ∃ e, remove_task_command ts = .error e := by
  unfold remove_task_command
  split_ifs with h1 h2 h3 h4 h5 h6 h7 h8
  · exact ⟨_, rfl⟩
  · exact ⟨_, rfl⟩
  · exact absurd (by simpa using h4) hps
  · exact ⟨_, rfl⟩
  · exact absurd (by simpa using h6) hps
  · exact ⟨_, rfl⟩
  · exact absurd (by simpa using h8) hps
  · exact ⟨_, rfl⟩
  · exact absurd rfl (by omega : flagCount ["-a", "--all"] ts ≠ flagCount ["-a", "--all"] ts)

theorem rm_err_missing (ts : List Token) (hps : positionals ts = [])
    (hflags : flagCount ["-a", "--all"] ts + flagCount ["-c", "--cleanup"] ts
      + flagCount ["--project"] ts = 0) :
    ∃ e, remove_task_command ts = .error e := by
  unfold remove_task_command
  split_ifs with h1 h2 h3 h4 h5 h6 h7 h8
  · exact ⟨_, rfl⟩
  · exact ⟨_, rfl⟩
  · exact absurd h3 (by omega)
  · exact absurd h3 (by omega)
  · exact absurd h5 (by omega)
  · exact absurd h5 (by omega)
  · exact absurd h7 (by omega)
  · exact absurd h7 (by omega)
  · exact ⟨"one or more task indices are required", by rw [hps]; rfl⟩

theorem rm_err_multi (ts : List Token)
    (hflags : flagCount ["-a", "--all"] ts + flagCount ["-c", "--cleanup"] ts
      + flagCount ["--project"] ts > 1) :
    ∃ e, remove_task_command ts = .error e := by
  unfold remove_task_command
  split_ifs with h1 <;> exact ⟨_, rfl⟩

theorem find?_filter_ne (x : Nat) (p : Nat → Bool) (hx : p x = false) :
    ∀ l : List Nat, (l.filter (fun y => y != x)).find? p = l.find? p := by
  intro l
  induction l with
  | nil => rfl
  | cons y l ih =>
    rw [List.filter_cons]
    by_cases hy : y = x
    · subst hy
      simp only [bne_self_eq_false, if_false, Bool.false_eq_true]
      rw [ih, List.find?_cons, hx]
    · rw [if_pos (by simpa using hy)]
      rw [List.find?_cons, List.find?_cons]
      cases hp : p y
      · simp [ih]
      · simp

theorem dedupKeepFirst_find? (p : Nat → Bool) :
    ∀ l, (dedupKeepFirst l).find? p = l.find? p := by
  intro l
  induction l using dedupKeepFirst.induct with
  | case1 => rw [dedupKeepFirst]
  | case2 x xs ih =>
    rw [dedupKeepFirst, List.find?_cons, List.find?_cons]
    cases hp : p x
    · simp only [Bool.false_eq_true, if_false]
      rw [ih, find?_filter_ne x p hp]
    · simp

theorem mem_dedupKeepFirst : ∀ (l : List Nat) (a : Nat), a ∈ dedupKeepFirst l ↔ a ∈ l := by
  intro l
  induction l using dedupKeepFirst.induct with
  | case1 => intro a; rw [dedupKeepFirst]
  | case2 x xs ih =>
    intro a
    rw [dedupKeepFirst]
    simp only [List.mem_cons, ih, List.mem_filter, bne_iff_ne]
    constructor
    · rintro (rfl | ⟨h, _⟩)
      · exact Or.inl rfl
      · exact Or.inr h
    · rintro (rfl | h)
      · exact Or.inl rfl
      · by_cases hax : a = x
        · exact Or.inl hax
        · exact Or.inr ⟨h, hax⟩

theorem any_filterMap_dedup (ids : List Nat) (f : Nat → Option Task) (g : Task → Bool) :
    ((dedupKeepFirst ids).filterMap f).any g = (ids.filterMap f).any g := by
  rw [Bool.eq_iff_iff]
  simp only [List.any_eq_true, List.mem_filterMap, mem_dedupKeepFirst]

theorem markCompletion_dedup (v : Bool) (ids : List Nat) (tasks : List Task) :
    markCompletion v (.Indexed (dedupKeepFirst ids)) tasks
      = markCompletion v (.Indexed ids) tasks := by
  simp only [markCompletion, resolve]
  rw [dedupKeepFirst_find?]
  cases hf : ids.find? (fun i => (lookupTask tasks i).isNone) with
  | some i => rfl
  | none =>
    simp only [Except.map, Except.ok.injEq]
    have hfun :
        (fun t : Task => if ((dedupKeepFirst ids).filterMap (lookupTask tasks)).any
            (fun r => r.index == t.index) then { t with completed := v } else t)
        = (fun t : Task => if (ids.filterMap (lookupTask tasks)).any
            (fun r => r.index == t.index) then { t with completed := v } else t) := by
      funext t
      rw [any_filterMap_dedup]
    rw [hfun]

theorem removeTask_dedup (ids : List Nat) (tasks : List Task) :
    removeTask (.Indexed (dedupKeepFirst ids)) tasks
      = removeTask (.Indexed ids) tasks := by
  simp only [removeTask, resolve]
  rw [dedupKeepFirst_find?]
  cases hf : ids.find? (fun i => (lookupTask tasks i).isNone) with
  | some i => rfl
  | none =>
    simp only [Except.map, Except.ok.injEq]
    have hfun :
        (fun t : Task => !((dedupKeepFirst ids).filterMap (lookupTask tasks)).any
            (fun r => r.index == t.index))
        = (fun t : Task => !(ids.filterMap (lookupTask tasks)).any
            (fun r => r.index == t.index)) := by
      funext t
      rw [any_filterMap_dedup]
    rw [hfun]

/- ### Claim theorems -/

/-- Claim C1, counterexample: the claim that every accepted `add` command
line yields a description that is non-empty after trimming fails on the
code: the command line `add " "` (a single all-whitespace description word)
is accepted by `add_task_command`, and its description trims to the empty
string. -/
theorem c1_counterexample :
    add_task_command [Token.pos " "] = .ok (.AddTask " " false) ∧
      nonEmptyAfterTrim " " = false :=
  ⟨rfl, rfl⟩

/-- Claim C1 (amended): command lines supplying no description words are
rejected at parse time, and every accepted `add` command line has at least
one description word; the description is non-empty after trimming whenever
at least one supplied word is non-empty after trimming (but an
all-whitespace word list is accepted with a description that trims to
empty). -/
theorem c1_amended :
    (∀ ts : List Token, positionals ts = [] → ∃ e, add_task_command ts = .error e) ∧
    (∀ (ts : List Token) (d : String) (c : Bool),
      add_task_command ts = .ok (.AddTask d c) →
        positionals ts ≠ [] ∧
          ((∃ w ∈ positionals ts, nonEmptyAfterTrim w = true) →
            nonEmptyAfterTrim d = true)) := by
  constructor
  · intro ts hps
    unfold add_task_command
    split_ifs with h1 h2 h3
    · exact ⟨_, rfl⟩
    · exact ⟨_, rfl⟩
    · exact ⟨_, rfl⟩
    · exact absurd hps (by simpa using h3)
  · intro ts d c h
    obtain ⟨hcmd, hne, _⟩ := add_ok_inv ts _ h
    simp only [Command.AddTask.injEq] at hcmd
    obtain ⟨hd, _⟩ := hcmd
    refine ⟨hne, ?_⟩
    rintro ⟨w, hw, hwne⟩
    rw [hd, joinDesc_eq_spaceJoin]
    exact spaceJoin_nonEmptyAfterTrim _ w hw hwne

/-- Witness for C1 (amended), at the empty command line. -/
theorem c1_amended_witness : ∃ e, add_task_command [] = Except.error e :=
  c1_amended.1 [] rfl

/-- Claim C2: for the selection-bearing commands, an `Indexed` selector
with duplicate ids behaves exactly like the selector over the deduplicated
id list: `MarkCompletion` and `RemoveTask` (modelled from spec §4.3-4.4,
as the interpreter is not part of src) give identical results, so
duplicates are a single logical reference, never double-applied and never
an error. -/
theorem c2_duplicate_indices (v : Bool) (ids : List Nat) (tasks : List Task) :
    markCompletion v (.Indexed ids) tasks
        = markCompletion v (.Indexed (dedupKeepFirst ids)) tasks ∧
      removeTask (.Indexed ids) tasks
        = removeTask (.Indexed (dedupKeepFirst ids)) tasks :=
  ⟨(markCompletion_dedup v ids tasks).symm, (removeTask_dedup ids tasks).symm⟩

/-- Claim C3: for `done` and `rm`, index positionals and the selection
flags are mutually exclusive at the parse boundary: every successful parse
carries exactly one selector coming from exactly one alternative, and
mixing alternatives, or supplying none, is a parse error. -/
theorem c3_selector_exclusive (ts : List Token) :
    (∀ cmd, task_completed_command ts = .ok cmd →
        (∃ b ids, cmd = .MarkCompletion b (.Indexed ids) ∧ positionals ts ≠ [] ∧
          flagCount ["-a", "--all"] ts = 0) ∨
        (∃ b, cmd = .MarkCompletion b .All ∧ positionals ts = [] ∧
          flagCount ["-a", "--all"] ts = 1)) ∧
    (positionals ts ≠ [] → flagCount ["-a", "--all"] ts ≠ 0 →
      ∃ e, task_completed_command ts = .error e) ∧
    (positionals ts = [] → flagCount ["-a", "--all"] ts = 0 →
      ∃ e, task_completed_command ts = .error e) ∧
    (∀ cmd, remove_task_command ts = .ok cmd →
        (∃ ids, cmd = .RemoveTask (.Indexed ids) ∧ positionals ts ≠ [] ∧
          flagCount ["-a", "--all"] ts = 0 ∧ flagCount ["-c", "--cleanup"] ts = 0 ∧
          flagCount ["--project"] ts = 0) ∨
        (cmd = .RemoveTask .All ∧ positionals ts = [] ∧
          flagCount ["-a", "--all"] ts = 1 ∧ flagCount ["-c", "--cleanup"] ts = 0 ∧
          flagCount ["--project"] ts = 0) ∨
        (cmd = .RemoveTask .Completed ∧ positionals ts = [] ∧
          flagCount ["-a", "--all"] ts = 0 ∧ flagCount ["-c", "--cleanup"] ts = 1 ∧
          flagCount ["--project"] ts = 0) ∨
        (cmd = .RemoveProject ∧ positionals ts = [] ∧
          flagCount ["-a", "--all"] ts = 0 ∧ flagCount ["-c", "--cleanup"] ts = 0 ∧
          flagCount ["--project"] ts = 1)) ∧
    (positionals ts ≠ [] → flagCount ["-a", "--all"] ts
        + flagCount ["-c", "--cleanup"] ts + flagCount ["--project"] ts ≠ 0 →
      ∃ e, remove_task_command ts = .error e) ∧
    (positionals ts = [] → flagCount ["-a", "--all"] ts
        + flagCount ["-c", "--cleanup"] ts + flagCount ["--project"] ts = 0 →
      ∃ e, remove_task_command ts = .error e) ∧
    (flagCount ["-a", "--all"] ts + flagCount ["-c", "--cleanup"] ts
        + flagCount ["--project"] ts > 1 →
      ∃ e, remove_task_command ts = .error e) := by
  refine ⟨?_, done_err_conflict ts, done_err_missing ts, rm_ok_inv ts,
    rm_err_conflict ts, rm_err_missing ts, rm_err_multi ts⟩
  intro cmd h
  rcases done_ok_inv ts cmd h with ⟨ids, hcmd, hne, hz⟩ | ⟨hcmd, hpse, ho⟩
  · exact Or.inl ⟨_, ids, hcmd, hne, hz⟩
  · exact Or.inr ⟨_, hcmd, hpse, ho⟩

/-- Witness for C3, at the conflicting line `done 1 --all`. -/
theorem c3_witness :
    ∃ e, task_completed_command [Token.pos "1", Token.flag "-a"] = .error e :=
  (c3_selector_exclusive [Token.pos "1", Token.flag "-a"]).2.1 (by decide) (by decide)

/-- Claim C4: every value the parser can produce is one of the eight
variants of the command surface, with exactly the enumerated payloads. -/
theorem c4_command_surface (env : Option String) (ts : List Token) (c : Command)
    (_h : options env ts = .ok c) :
    c = .Show ∨ (∃ nm f, c = .NewProject nm f) ∨ (∃ d b, c = .AddTask d b) ∨
      (∃ b sel, c = .MarkCompletion b sel) ∨ (∃ sel, c = .RemoveTask sel) ∨
      (∃ ed i, c = .EditTask ed i) ∨ (∃ sh, c = .PrintCompletion sh) ∨
      c = .RemoveProject := by
  cases c <;> simp

/-- Witness for C4, at the empty command line (which parses to `Show`). -/
theorem c4_witness :
    Command.Show = Command.Show ∨
      (∃ nm f, Command.Show = Command.NewProject nm f) ∨
      (∃ d b, Command.Show = Command.AddTask d b) ∨
      (∃ b sel, Command.Show = Command.MarkCompletion b sel) ∨
      (∃ sel, Command.Show = Command.RemoveTask sel) ∨
      (∃ ed i, Command.Show = Command.EditTask ed i) ∨
      (∃ sh, Command.Show = Command.PrintCompletion sh) ∨
      Command.Show = Command.RemoveProject :=
  c4_command_surface none [] Command.Show rfl

/-- Claim C5, counterexample: dynamic index completion is not independent
of the on-disk project: with the same command-line input, a project with
one task and an empty project produce different completion candidates,
because `complete_indices` reads the loaded project's tasks. -/
theorem c5_counterexample :
    complete_indices [⟨0, "a", false⟩] [""] ≠ complete_indices [] [""] := by
  decide

/-- Claim C5 (amended): the static completion-script printer
(`completions` subcommand) depends only on its command line, but the
dynamic index completion reads the current directory's project: every
candidate it produces is the index (with description) of a task of the
loaded project, so candidates vary with the project file. -/
theorem c5_amended (tasks : List Task) (input : List String)
    (out : List (String × Option String))
    (h : complete_indices tasks input = some out) :
    ∀ pr ∈ out, ∃ t ∈ tasks, pr = (toString t.index, some t.desc) := by
  unfold complete_indices at h
  split at h
  · simp at h
  · rename_i active hlast
    simp only [Option.some.injEq] at h
    subst h
    intro pr hpr
    rw [List.mem_filterMap] at hpr
    obtain ⟨t, ht, hft⟩ := hpr
    refine ⟨t, ht, ?_⟩
    split at hft
    · simp at hft
    · split at hft
      · simp only [Option.some.injEq] at hft
        exact hft.symm
      · simp at hft

/-- Witness for C5 (amended), at a one-task project. -/
theorem c5_amended_witness :
    ∃ t ∈ [(⟨0, "a", false⟩ : Task)], ("0", some "a") = (toString t.index, some t.desc) :=
  c5_amended [⟨0, "a", false⟩] [""] [("0", some "a")] rfl ("0", some "a") (by decide)

/-- Claim C6: index positionals are parsed as unsigned integers; the index
selector fails exactly when some positional is not a valid unsigned
integer (reporting `not a valid index: x` for the first such token, in
request order) or when no positional is supplied; on success the selector
is `Indexed` of the parsed values in request order. -/
theorem c6_parse_indices (ps : List String) :
    (ps = [] → parse_indices ps = .error "one or more task indices are required") ∧
    (∀ x, ps.find? (fun y => (parseUsize y).isNone) = some x →
      parse_indices ps = .error ("not a valid index: " ++ x)) ∧
    ((∃ e, parse_indices ps = .error e) ↔ (ps = [] ∨ ∃ x ∈ ps, parseUsize x = none)) ∧
    (∀ sel, parse_indices ps = .ok sel →
      ∃ ns, sel = .Indexed ns ∧
        List.Forall₂ (fun x n => parseUsize x = some n) ps ns) := by
  refine ⟨?_, ?_, parse_indices_err_iff ps, ?_⟩
  · rintro rfl; rfl
  · intro x hx
    cases ps with
    | nil => simp at hx
    | cons y ys =>
      have herr := parseIndicesList_err_find _ x hx
      simp [parse_indices, herr, Except.map]
  · intro sel h
    obtain ⟨hne, ids, rfl, hids⟩ := parse_indices_ok_inv ps sel h
    exact ⟨ids, rfl, parseIndicesList_ok_forall₂ ps ids hids⟩

/-- Witness for C6, at a line whose second index is invalid. -/
theorem c6_witness :
    parse_indices ["7", "abc"] = .error ("not a valid index: " ++ "abc") :=
  (c6_parse_indices ["7", "abc"]).2.1 "abc" rfl

/-- Claim C7: for `edit`, the `EDITOR` environment variable supplies the
editor exactly when no `-e`/`--editor` flag is given, and an explicit flag
takes precedence over the environment. -/
theorem c7_editor_env (env : Option String) (ts : List Token) (ed : String) (i : Nat) :
    (argValues ["-e", "--editor"] ts = [] →
      edit_task_command env ts = .ok (.EditTask ed i) → env = some ed) ∧
    (∀ v, argValues ["-e", "--editor"] ts = [v] →
      edit_task_command env ts = .ok (.EditTask ed i) → ed = v) := by
  constructor
  · intro hA h
    obtain ⟨ed', i', hcmd, hsrc⟩ := edit_ok_inv env ts _ h
    simp only [Command.EditTask.injEq] at hcmd
    obtain ⟨rfl, rfl⟩ := hcmd
    rcases hsrc with hv | ⟨_, henv⟩
    · rw [hA] at hv
      exact absurd hv (by simp)
    · exact henv
  · intro v hA h
    obtain ⟨ed', i', hcmd, hsrc⟩ := edit_ok_inv env ts _ h
    simp only [Command.EditTask.injEq] at hcmd
    obtain ⟨rfl, rfl⟩ := hcmd
    rcases hsrc with hv | ⟨hA2, _⟩
    · rw [hA] at hv
      simp only [List.cons.injEq, and_true] at hv
      exact hv.symm
    · rw [hA] at hA2
      exact absurd hA2 (by simp)

/-- Witness for C7: the environment supplies the editor for
`edit 3` with `EDITOR=vi`, and `edit -e nano 3` overrides `EDITOR`. -/
theorem c7_witness :
    (some "vi" : Option String) = some "vi" ∧ ("nano" : String) = "nano" :=
  ⟨(c7_editor_env (some "vi") [Token.pos "3"] "vi" 3).1 rfl rfl,
    (c7_editor_env none [Token.arg "-e" "nano", Token.pos "3"] "nano" 3).2 "nano" rfl rfl⟩

/-- Claim C8, counterexample: an argument list that names no subcommand
does not, in general, fall back to `Show`: the lone positional `xyz` is a
parse error (the fallback value is used, but the unconsumed item is
rejected). -/
theorem c8_counterexample :
    options none [Token.pos "xyz"] ≠ .ok .Show ∧
      options none [Token.pos "xyz"] = .error "unexpected item: xyz" := by
  constructor
  · intro hc
    rw [show options none [Token.pos "xyz"]
        = Except.error "unexpected item: xyz" from rfl] at hc
    simp at hc
  · rfl

/-- Claim C8 (amended): the parser falls back to `Command.Show` exactly
for the empty argument list; any non-empty list that does not start with a
subcommand name is a parse error. -/
theorem c8_amended (env : Option String) (ts : List Token) :
    options env ts = .ok .Show ↔ ts = [] := by
  constructor
  · intro h
    cases ts with
    | nil => rfl
    | cons t rest =>
      exfalso
      cases t with
      | pos n =>
        simp only [options] at h
        split_ifs at h with h1 h2 h3 h4 h5 h6
        · obtain ⟨nm, f, hc⟩ := new_ok_inv rest _ h
          simp at hc
        · obtain ⟨hc, -⟩ := add_ok_inv rest _ h
          simp at hc
        · rcases done_ok_inv rest _ h with ⟨ids, hc, -, -⟩ | ⟨hc, -, -⟩ <;> simp at hc
        · rcases rm_ok_inv rest _ h with ⟨ids, hc, -⟩ | ⟨hc, -⟩ | ⟨hc, -⟩ | ⟨hc, -⟩ <;>
            simp at hc
        · obtain ⟨ed, i, hc, -⟩ := edit_ok_inv env rest _ h
          simp at hc
        · obtain ⟨s, hc, -⟩ := comp_ok_inv rest _ h
          simp at hc
      | flag n => simp [options] at h
      | arg n v => simp [options] at h
  · rintro rfl; rfl

/-- Witness for C8 (amended), at the empty argument list. -/
theorem c8_witness : options none [] = .ok Command.Show :=
  (c8_amended none []).mpr rfl

/-- Claim C9: a parsed `done` invocation marks as completed by default:
the boolean of `MarkCompletion` is `true` exactly when the `-!`/`--not`
flag is absent. -/
theorem c9_not_flag (ts : List Token) (b : Bool) (sel : TaskSelector)
    (h : task_completed_command ts = .ok (.MarkCompletion b sel)) :
    b = true ↔ flagCount ["-!", "--not"] ts = 0 := by
  rcases done_ok_inv ts _ h with ⟨ids, hcmd, -, -⟩ | ⟨hcmd, -, -⟩ <;>
  · simp only [Command.MarkCompletion.injEq] at hcmd
    obtain ⟨hb, -⟩ := hcmd
    subst hb
    simp

/-- Witness for C9, at the line `done --not 1`. -/
theorem c9_witness :
    (false = true ↔ flagCount ["-!", "--not"] [Token.pos "1", Token.flag "--not"] = 0) :=
  c9_not_flag [Token.pos "1", Token.flag "--not"] false (.Indexed [1]) rfl

/-- Claim C10: the `AddTask` description is the single-space join of the
description positionals in order (no leading or trailing separator), and
the completed flag is `true` exactly when `-c`/`--completed` is passed. -/
theorem c10_add_join (ts : List Token) (d : String) (c : Bool)
    (h : add_task_command ts = .ok (.AddTask d c)) :
    d = String.intercalate " " (positionals ts) ∧
      (c = true ↔ flagCount ["-c", "--completed"] ts ≠ 0) := by
  obtain ⟨hcmd, hne, hle⟩ := add_ok_inv ts _ h
  simp only [Command.AddTask.injEq] at hcmd
  obtain ⟨hd, hc⟩ := hcmd
  constructor
  · rw [hd, joinDesc_eq_intercalate]
  · subst hc
    simp only [beq_iff_eq]
    omega

/-- Witness for C10, at the line `add a b -c`. -/
theorem c10_witness :
    ("a b" = String.intercalate " "
        (positionals [Token.pos "a", Token.pos "b", Token.flag "-c"]) ∧
      (true = true ↔
        flagCount ["-c", "--completed"] [Token.pos "a", Token.pos "b", Token.flag "-c"] ≠ 0)) :=
  c10_add_join [Token.pos "a", Token.pos "b", Token.flag "-c"] "a b" true rfl

end Tutel
